import Mathlib

/-!
Shallow embedding of the uecs ECS library (src/src/world.ts, src/src/tag.ts).

JavaScript objects keyed by strings are modelled as insertion-ordered
association lists, and `Set<Entity>` as an insertion-ordered duplicate-free
list.  A JavaScript `throw` is modelled by returning the state at the moment
of the throw together with the error value.  Entities are `Int` (JS numbers;
the `Null` sentinel is -1).
-/

deriving instance DecidableEq for Except

set_option maxRecDepth 100000

namespace UECS

/-- Lookup in an association list: models JS property read `obj[k]`
(`undefined` becomes `none`). -/
def lookupA {α β : Type} [DecidableEq α] : List (α × β) → α → Option β
  | [], _ => none
  | (k', v) :: rest, k => if k' = k then some v else lookupA rest k

/-- Write to an association list: models JS property write `obj[k] = v`
(updates in place when the key exists, appends a new key otherwise,
matching JS insertion-order semantics). -/
def setA {α β : Type} [DecidableEq α] : List (α × β) → α → β → List (α × β)
  | [], k, v => [(k, v)]
  | (k', v') :: rest, k, v =>
    if k' = k then (k, v) :: rest else (k', v') :: setA rest k v

/-- Key removal from an association list: models JS `delete obj[k]`. -/
def eraseA {α β : Type} [DecidableEq α] : List (α × β) → α → List (α × β)
  | [], _ => []
  | (k', v) :: rest, k => if k' = k then eraseA rest k else (k', v) :: eraseA rest k

/-- A JS component value, as far as the engine observes it: the name of its
constructor, its own `name` property when it has one (a constructor function
used directly as a component carries one), whether it has a `free` method,
and a payload distinguishing instances. -/
structure Component where
  ctorName : String
  name : Option String
  hasFree : Bool
  payload : Nat
deriving DecidableEq

/-- A JS constructor (class) as passed to `get`/`has`/`remove`/`view`:
its `name` property, plus an identity tag modelling JS object identity
(two distinct class declarations are distinct objects even when their
names coincide). -/
structure Ctor where
  name : String
  id : Nat
deriving DecidableEq

/-- The storage key chosen by `World.emplace`:
`component.name ?? component.constructor.name` (world.ts line 205). -/
def typeKey (c : Component) : String := c.name.getD c.ctorName

/-- Errors thrown by the World (world.ts lines 208 and 248): each carries the
component type name and the entity id the message interpolates. -/
inductive WorldError
  | deadEntitySet (type : String) (entity : Int)
  | deadEntityRemove (type : String) (entity : Int)
deriving DecidableEq

/-- A per-type sparse table `ComponentStorage<Component>`: entity -> component. -/
abbrev Table := List (Int × Component)

/-- A cached `View` object: the type names its generated iteration function was
specialized to, plus an identity tag modelling JS object identity of the
`new View(...)` allocation. -/
structure ViewT where
  types : List String
  id : Nat
deriving DecidableEq

/-- The `World` state (world.ts lines 38-41). -/
structure World where
  entitySequence : Int
  entities : List Int
  components : List (String × Table)
  views : List (String × ViewT)
  viewCounter : Nat
deriving DecidableEq

/-- A fresh `new World`. -/
def emptyWorld : World := ⟨0, [], [], [], 0⟩

/-- Models `Set.add`: no-op when the element is present, appends otherwise. -/
def addEntity (l : List Int) (e : Int) : List Int := if e ∈ l then l else l ++ [e]

/-- World.exists (world.ts line 95). -/
def existsW (w : World) (entity : Int) : Bool := entity ∈ w.entities

/-- The chained storage lookup `this.components[type]?.[entity]` pattern shared
by `get` and `has`. -/
def getComp (w : World) (type : String) (entity : Int) : Option Component :=
  match lookupA w.components type with
  | none => none
  | some storage => lookupA storage entity

/-- World.get (world.ts lines 141-146): keyed by the constructor's `name`,
no liveness check. -/
def getW (w : World) (entity : Int) (component : Ctor) : Option Component :=
  getComp w component.name entity

/-- World.has (world.ts lines 162-166). -/
def hasW (w : World) (entity : Int) (component : Ctor) : Bool :=
  (getComp w component.name entity).isSome

/-- World.emplace (world.ts lines 204-214).  Returns the state at exit
together with the outcome: a throw leaves the state exactly as it was
(the liveness check precedes every write). -/
def emplaceSt (w : World) (entity : Int) (component : Component) :
    World × Except WorldError Unit :=
  let type := typeKey component
  if entity ∈ w.entities then
    let storage := match lookupA w.components type with
      | none => []
      | some s => s
    ({ w with components := setA w.components type (setA storage entity component) },
     Except.ok ())
  else
    (w, Except.error (WorldError.deadEntitySet type entity))

/-- The emplace loop shared by `create` and `insert`: a throw aborts the loop,
keeping the writes made so far (JS exception semantics). -/
def emplaceAll (w : World) (entity : Int) : List Component → World × Except WorldError Unit
  | [] => (w, Except.ok ())
  | c :: rest =>
    let r := emplaceSt w entity c
    match r.2 with
    | Except.ok _ => emplaceAll r.1 entity rest
    | Except.error err => (r.1, Except.error err)

/-- World.create (world.ts lines 46-56). -/
def createW (w : World) (components : List Component) :
    (World × Int) × Except WorldError Unit :=
  let entity := w.entitySequence
  let w1 : World := { w with
    entitySequence := w.entitySequence + 1,
    entities := addEntity w.entities entity }
  let r := emplaceAll w1 entity components
  ((r.1, entity), r.2)

/-- World.insert (world.ts lines 82-90): advances the sequence only when
`entity > entitySequence`, adds to the live set, emplaces each component. -/
def insertW (w : World) (entity : Int) (components : List Component) :
    (World × Int) × Except WorldError Unit :=
  let w1 : World := { w with
    entitySequence := if entity > w.entitySequence then entity + 1 else w.entitySequence,
    entities := addEntity w.entities entity }
  let r := emplaceAll w1 entity components
  ((r.1, entity), r.2)

/-- World.remove (world.ts lines 243-256): throws for a dead entity, otherwise
detaches and returns the stored component (or `none`). -/
def removeSt (w : World) (entity : Int) (component : Ctor) :
    World × Except WorldError (Option Component) :=
  let type := component.name
  if entity ∈ w.entities then
    match lookupA w.components type with
    | none => (w, Except.ok none)
    | some storage =>
      let out := lookupA storage entity
      ({ w with components := setA w.components type (eraseA storage entity) },
       Except.ok out)
  else
    (w, Except.error (WorldError.deadEntityRemove type entity))

/-- The loop body of World.destroy (world.ts lines 114-119): walks every
materialized type table, collects the `.free()` invocations it performs
(type name and component, in table order), and erases the entity's entry. -/
def destroyTables : List (String × Table) → Int → List (String × Table) × List (String × Component)
  | [], _ => ([], [])
  | (k, tbl) :: rest, entity =>
    let freed := match lookupA tbl entity with
      | some c => if c.hasFree then [(k, c)] else []
      | none => []
    let r := destroyTables rest entity
    ((k, eraseA tbl entity) :: r.1, freed ++ r.2)

/-- World.destroy (world.ts lines 112-120): deletes the entity from the live
set and runs the table walk; the second component records the `.free()` calls. -/
def destroyW (w : World) (entity : Int) : World × List (String × Component) :=
  let r := destroyTables w.components entity
  ({ w with
      entities := w.entities.filter (fun x => decide (x ≠ entity)),
      components := r.1 },
   r.2)

/-- World.size (world.ts line 261). -/
def sizeW (w : World) : Nat := w.entities.length

/-- The View cache key built by World.view (world.ts lines 291-294): the bare
concatenation of the constructors' `name` properties. -/
def viewKey (types : List Ctor) : String :=
  types.foldl (fun s t => s ++ t.name) ""

/-- The registration loop of World.view (world.ts lines 297-301): gives every
referenced type at least an empty table. -/
def ensureTables : List (String × Table) → List Ctor → List (String × Table)
  | cs, [] => cs
  | cs, t :: rest =>
    match lookupA cs t.name with
    | none => ensureTables (setA cs t.name []) rest
    | some _ => ensureTables cs rest

/-- World.view (world.ts lines 290-305): returns the cached View for the key
when present; otherwise registers the referenced types and caches a new View
specialized to this tuple. -/
def viewW (w : World) (types : List Ctor) : World × ViewT :=
  let id := viewKey types
  match lookupA w.views id with
  | some v => (w, v)
  | none =>
    let v : ViewT := ⟨types.map (fun t => t.name), w.viewCounter⟩
    ({ w with
        components := ensureTables w.components types,
        views := setA w.views id v,
        viewCounter := w.viewCounter + 1 },
     v)

/-- A runtime TypeError of the generated iteration body: reading
`world.components[type][entity]` when the type's table does not exist. -/
inductive RuntimeError
  | missingTable (type : String)
deriving DecidableEq

/-- The per-entity body generated by generateView (world.ts lines 344-351):
for each requested type in order, read the type's table (TypeError when the
table is absent) and the entity's component in it; `continue` (skip the
entity, without touching later tables) on the first missing component. -/
def viewStep (w : World) : List String → Int → Except RuntimeError (Option (List Component))
  | [], _ => Except.ok (some [])
  | n :: rest, entity =>
    match lookupA w.components n with
    | none => Except.error (RuntimeError.missingTable n)
    | some tbl =>
      match lookupA tbl entity with
      | none => Except.ok none
      | some c =>
        match viewStep w rest entity with
        | Except.error err => Except.error err
        | Except.ok none => Except.ok none
        | Except.ok (some cs) => Except.ok (some (c :: cs))

/-- The loop generated by generateView (world.ts lines 353-357) over a list of
entities: invokes the callback with each matching entity and its components,
halting when the callback returns `false`.  The result is the trace of
callback invocations, in order. -/
def runEachGo (w : World) (names : List String) (cb : Int → List Component → Bool) :
    List Int → Except RuntimeError (List (Int × List Component))
  | [] => Except.ok []
  | e :: rest =>
    match viewStep w names e with
    | Except.error err => Except.error err
    | Except.ok none => runEachGo w names cb rest
    | Except.ok (some cs) =>
      if cb e cs then
        match runEachGo w names cb rest with
        | Except.error err => Except.error err
        | Except.ok tr => Except.ok ((e, cs) :: tr)
      else
        Except.ok [(e, cs)]

/-- View.each (world.ts lines 334-336): runs the generated loop over the
world's current live-entity set. -/
def eachW (w : World) (v : ViewT) (cb : Int → List Component → Bool) :
    Except RuntimeError (List (Int × List Component)) :=
  runEachGo w v.types cb w.entities

/-- The components an entity matches for a list of type names, when every
table exists: `none` when some requested component is absent. -/
def collectComps (w : World) : List String → Int → Option (List Component)
  | [], _ => some []
  | n :: rest, entity =>
    match getComp w n entity with
    | none => none
    | some c =>
      match collectComps w rest entity with
      | none => none
      | some cs => some (c :: cs)

/-- The last component of a given type key in an argument list (later
arguments overwrite earlier ones of the same type). -/
def lastWith : List Component → String → Option Component
  | [], _ => none
  | c :: rest, k =>
    match lastWith rest k with
    | some c2 => some c2
    | none => if typeKey c = k then some c else none

/-- The world produced by a `view` call that misses the cache: the referenced
types registered and the new View cached (the else-branch of World.view). -/
def viewMissWorld (w : World) (ts : List Ctor) : World :=
  { w with
    components := ensureTables w.components ts,
    views := setA w.views (viewKey ts) ⟨ts.map (fun t => t.name), w.viewCounter⟩,
    viewCounter := w.viewCounter + 1 }

/-! ## Concrete scenario of the spec (section 8): FizzBuzz over 30 entities -/

/-- The Fizz marker class. -/
def fizzCtor : Ctor := ⟨"Fizz", 0⟩

/-- The Buzz marker class. -/
def buzzCtor : Ctor := ⟨"Buzz", 1⟩

/-- An instance of Fizz. -/
def fizzComp : Component := ⟨"Fizz", none, false, 0⟩

/-- An instance of Buzz. -/
def buzzComp : Component := ⟨"Buzz", none, false, 0⟩

/-- The FizzBuzz world: 30 created entities, every 3rd with a Fizz component,
every 5th with a Buzz component. -/
def fizzBuzzWorld : World :=
  (List.range 30).foldl
    (fun w i =>
      let p := (createW w []).1
      let w2 := if i % 3 = 0 then (emplaceSt p.1 p.2 fizzComp).1 else p.1
      if i % 5 = 0 then (emplaceSt w2 p.2 buzzComp).1 else w2)
    emptyWorld

/-! ## Tag (src/src/tag.ts) -/

/-- A tag name: a string, a number, or any value with a stable string
representation (tag.ts line 3). -/
inductive TagName
  | str (s : String)
  | num (n : Int)
deriving DecidableEq

/-- The string conversion `name.toString()` applied by Tag.for (tag.ts
line 33); JS integer `toString` agrees with `Int` representation. -/
def tagToString : TagName → String
  | TagName.str s => s
  | TagName.num n => toString n

/-- The module-level state of the Tag helper: the memoization cache
(tag.ts line 13) and a counter modelling the identity of freshly created
classes. -/
structure TagState where
  cache : List (String × Ctor)
  counter : Nat
deriving DecidableEq

/-- The Tag cache at process start: empty. -/
def initTagState : TagState := ⟨[], 0⟩

/-- Tag.for (tag.ts lines 32-40): returns the cached class for the stringified
name, creating (with name `"T$" ++ n`) and caching one when absent. -/
def tagFor (st : TagState) (nm : TagName) : TagState × Ctor :=
  let n := tagToString nm
  match lookupA st.cache n with
  | some t => (st, t)
  | none =>
    let t : Ctor := ⟨"T$" ++ n, st.counter⟩
    (⟨setA st.cache n t, st.counter + 1⟩, t)

/-- A sequence of Tag.for requests threaded through the module state,
returning the classes in request order. -/
def tagRun (st : TagState) : List TagName → TagState × List Ctor
  | [] => (st, [])
  | nm :: rest =>
    let r := tagFor st nm
    let r2 := tagRun r.1 rest
    (r2.1, r.2 :: r2.2)

/-! ## Association-list lemmas -/

theorem lookupA_setA_self {α β : Type} [DecidableEq α] (l : List (α × β)) (k : α) (v : β) :
    lookupA (setA l k v) k = some v := by
  induction l with
  | nil => simp [setA, lookupA]
  | cons p rest ih =>
    obtain ⟨k', v'⟩ := p
    by_cases h : k' = k
    · simp [setA, h, lookupA]
    · simp [setA, h, lookupA, ih]

theorem lookupA_setA_ne {α β : Type} [DecidableEq α] (l : List (α × β)) (k k' : α) (v : β)
    (h : k' ≠ k) : lookupA (setA l k v) k' = lookupA l k' := by
  have h' : ¬k = k' := fun hh => h hh.symm
  induction l with
  | nil => simp [setA, lookupA, h']
  | cons p rest ih =>
    obtain ⟨k0, v0⟩ := p
    by_cases h0 : k0 = k
    · subst h0
      simp [setA, lookupA, h']
    · simp [setA, lookupA, h0, ih]

theorem lookupA_eraseA_self {α β : Type} [DecidableEq α] (l : List (α × β)) (k : α) :
    lookupA (eraseA l k) k = none := by
  induction l with
  | nil => simp [eraseA, lookupA]
  | cons p rest ih =>
    obtain ⟨k', v'⟩ := p
    by_cases h : k' = k
    · simpa [eraseA, h] using ih
    · simpa [eraseA, lookupA, h] using ih

theorem lookupA_eraseA_ne {α β : Type} [DecidableEq α] (l : List (α × β)) (k k' : α)
    (h : k' ≠ k) : lookupA (eraseA l k) k' = lookupA l k' := by
  induction l with
  | nil => simp [eraseA, lookupA]
  | cons p rest ih =>
    obtain ⟨k0, v0⟩ := p
    by_cases h0 : k0 = k
    · subst h0
      have h' : ¬k0 = k' := fun hh => h hh.symm
      simp [eraseA, lookupA, h', ih]
    · simp [eraseA, lookupA, h0, ih]

theorem mem_setA {α β : Type} [DecidableEq α] (l : List (α × β)) (k : α) (v : β)
    (p : α × β) (hp : p ∈ setA l k v) : p ∈ l ∨ p = (k, v) := by
  induction l with
  | nil => simpa [setA] using hp
  | cons q rest ih =>
    obtain ⟨k', v'⟩ := q
    by_cases h : k' = k
    · simp only [setA, if_pos h] at hp
      rcases List.mem_cons.mp hp with h1 | h1
      · right; exact h1
      · left; exact List.mem_cons_of_mem _ h1
    · simp only [setA, if_neg h] at hp
      rcases List.mem_cons.mp hp with h1 | h1
      · left; exact h1 ▸ List.mem_cons_self _ _
      · rcases ih h1 with h2 | h2
        · left; exact List.mem_cons_of_mem _ h2
        · right; exact h2

theorem mem_addEntity_self (l : List Int) (e : Int) : e ∈ addEntity l e := by
  unfold addEntity
  by_cases h : e ∈ l
  · simp [h]
  · simp [h]

/-! ## Emplace lemmas -/

/-- The effect of a successful `emplace` on a live entity: no error, every
field but the component storage untouched, and the storage changed exactly at
the emplaced type key and entity. -/
theorem emplace_ok (w : World) (e : Int) (c : Component) (he : e ∈ w.entities) :
    (emplaceSt w e c).2 = Except.ok () ∧
    (emplaceSt w e c).1.entitySequence = w.entitySequence ∧
    (emplaceSt w e c).1.entities = w.entities ∧
    (emplaceSt w e c).1.views = w.views ∧
    (emplaceSt w e c).1.viewCounter = w.viewCounter ∧
    ∀ k e', getComp (emplaceSt w e c).1 k e' =
      if k = typeKey c ∧ e' = e then some c else getComp w k e' := by
  unfold emplaceSt
  simp only [if_pos he]
  refine ⟨trivial, trivial, trivial, trivial, trivial, ?_⟩
  intro k e'
  by_cases hk : k = typeKey c
  · subst hk
    cases hl : lookupA w.components (typeKey c) with
    | none =>
      by_cases he' : e' = e
      · subst he'
        simp [getComp, lookupA_setA_self, hl]
      · have he2 : ¬e = e' := fun hh => he' hh.symm
        simp [getComp, lookupA_setA_self, lookupA_setA_ne, hl, he', he2, lookupA]
    | some s =>
      by_cases he' : e' = e
      · subst he'
        simp [getComp, lookupA_setA_self, hl]
      · simp [getComp, lookupA_setA_self, lookupA_setA_ne, hl, he']
  · have hcond : ¬(k = typeKey c ∧ e' = e) := fun hh => hk hh.1
    simp [getComp, lookupA_setA_ne, hk, hcond]

/-- The effect of the emplace loop on a live entity: no error, identity and
live set untouched, and for the target entity each type key holds the last
argument of that type (earlier storage otherwise). -/
theorem emplaceAll_ok (cs : List Component) (w : World) (e : Int) (he : e ∈ w.entities) :
    (emplaceAll w e cs).2 = Except.ok () ∧
    (emplaceAll w e cs).1.entitySequence = w.entitySequence ∧
    (emplaceAll w e cs).1.entities = w.entities ∧
    ∀ k e', getComp (emplaceAll w e cs).1 k e' =
      if e' = e then
        (match lastWith cs k with
         | some c => some c
         | none => getComp w k e)
      else getComp w k e' := by
  induction cs generalizing w with
  | nil =>
    refine ⟨rfl, rfl, rfl, ?_⟩
    intro k e'
    by_cases he' : e' = e
    · subst he'
      simp [emplaceAll, lastWith]
    · simp [emplaceAll, lastWith, he']
  | cons c rest ih =>
    obtain ⟨hok, hseq, hent, hvw, hvc, hget⟩ := emplace_ok w e c he
    rcases hsp : emplaceSt w e c with ⟨w1, r⟩
    rw [hsp] at hok hseq hent hget
    simp only at hok hseq hent hget
    subst hok
    have he1 : e ∈ w1.entities := hent ▸ he
    obtain ⟨ihok, ihseq, ihent, ihget⟩ := ih w1 he1
    have hred : emplaceAll w e (c :: rest) = emplaceAll w1 e rest := by
      simp only [emplaceAll, hsp]
    refine ⟨hred ▸ ihok, by rw [hred, ihseq, hseq], by rw [hred, ihent, hent], ?_⟩
    intro k e'
    rw [hred, ihget k e']
    by_cases he' : e' = e
    · subst he'
      simp only [if_pos rfl]
      cases hlw : lastWith rest k with
      | some c2 => simp [lastWith, hlw]
      | none =>
        simp only [lastWith, hlw]
        rw [hget k e']
        by_cases hkc : typeKey c = k
        · simp [hkc]
        · have hkc' : ¬k = typeKey c := fun hh => hkc hh.symm
          simp [hkc, hkc']
    · simp only [if_neg he']
      rw [hget k e']
      have hcond : ¬(k = typeKey c ∧ e' = e) := fun hh => he' hh.2
      simp [hcond]

/-- C4 (amended): `insert` never signals a duplicate: for every entity
identifier, live or not, it returns the entity, leaves it live, and assigns
the given components (the last argument of each type key winning, other
storage untouched). -/
theorem insert_upserts (w : World) (e : Int) (cs : List Component) :
    (insertW w e cs).2 = Except.ok () ∧
    (insertW w e cs).1.2 = e ∧
    existsW (insertW w e cs).1.1 e = true ∧
    ∀ k, getComp (insertW w e cs).1.1 k e =
      match lastWith cs k with
      | some c => some c
      | none => getComp w k e := by
  obtain ⟨hok, hseq, hent, hget⟩ := emplaceAll_ok cs
    { w with
      entitySequence := if e > w.entitySequence then e + 1 else w.entitySequence,
      entities := addEntity w.entities e } e (mem_addEntity_self _ _)
  refine ⟨hok, rfl, ?_, ?_⟩
  · show existsW (emplaceAll _ e cs).1 e = true
    simp only [existsW, hent]
    simp [mem_addEntity_self]
  · intro k
    have h := hget k e
    simp only [if_pos rfl] at h
    exact h

/-- C4 (counterexample to the frozen claim): entity 0 is live, yet
`insert(0, new A(5))` does not fail with a DuplicateEntity error: it
succeeds, returns 0, and attaches the component. -/
theorem insert_on_live_entity_succeeds :
    existsW (createW emptyWorld []).1.1 0 = true ∧
    (insertW (createW emptyWorld []).1.1 0 [⟨"A", none, false, 5⟩]).2 = Except.ok () ∧
    (insertW (createW emptyWorld []).1.1 0 [⟨"A", none, false, 5⟩]).1.2 = 0 ∧
    hasW (insertW (createW emptyWorld []).1.1 0 [⟨"A", none, false, 5⟩]).1.1 0 ⟨"A", 0⟩
      = true := by decide

/-- C1: the frozen claim says `remove` never fails, and the library's own doc
comment and test suite agree, but the code throws for a dead entity: on a
fresh world (entity 0 not live) `remove(0, A)` throws
`Cannot remove component "A" for dead entity ID 0` instead of returning
`undefined`. -/
theorem remove_on_dead_entity_throws :
    existsW emptyWorld 0 = false ∧
    removeSt emptyWorld 0 ⟨"A", 0⟩ =
      (emptyWorld, Except.error (WorldError.deadEntityRemove "A" 0)) := by decide

/-- C2: the sequence-advance guard in `insert` uses a strict comparison, so
inserting the identifier that equals the current sequence counter leaves the
counter unchanged and the next `create()` returns that same identifier: after
`insert(0)` on a fresh world, `create()` returns 0 (the library's own test
expects 1). -/
theorem insert_then_create_collides :
    (insertW emptyWorld 0 []).1.2 = 0 ∧
    existsW (insertW emptyWorld 0 []).1.1 0 = true ∧
    (insertW emptyWorld 0 []).1.1.entitySequence = 0 ∧
    (createW (insertW emptyWorld 0 []).1.1 []).1.2 = 0 := by decide

/-- C5: `emplace` on an entity that is not in the live set fails with the
dead-entity error naming the component's type key and the entity, and leaves
the world (in particular the component storage) exactly as it was. -/
theorem emplace_dead_entity_error (w : World) (e : Int) (c : Component)
    (h : e ∉ w.entities) :
    emplaceSt w e c = (w, Except.error (WorldError.deadEntitySet (typeKey c) e)) := by
  unfold emplaceSt
  simp [h]

theorem emplace_dead_entity_error_witness :
    (5 : Int) ∉ emptyWorld.entities ∧
    emplaceSt emptyWorld 5 ⟨"A", none, false, 0⟩ =
      (emptyWorld, Except.error (WorldError.deadEntitySet "A" 5)) :=
  ⟨by decide, emplace_dead_entity_error emptyWorld 5 ⟨"A", none, false, 0⟩ (by decide)⟩

/-- C10: `emplace` keys storage by the component value's own `name` property
when present (falling back to the constructor name), so an emplaced
constructor-like value carrying `name = n` is found by `has`/`get` under any
constructor named `n`; and a component instance carrying its own `name`
property different from its constructor's name is stored under the former, so
`get` under the constructor yields `none` right after a successful `emplace`
(concretely: a component with constructor name "C" and own name "foo"). -/
theorem emplace_keys_by_value_name :
    (∀ (w : World) (e : Int) (c : Component) (n : String), e ∈ w.entities → c.name = some n →
      (emplaceSt w e c).2 = Except.ok () ∧
      ∀ cid : Nat, hasW (emplaceSt w e c).1 e ⟨n, cid⟩ = true ∧
        getW (emplaceSt w e c).1 e ⟨n, cid⟩ = some c) ∧
    ((emplaceSt (createW emptyWorld []).1.1 0 ⟨"C", some "foo", false, 0⟩).2 = Except.ok () ∧
      getW (emplaceSt (createW emptyWorld []).1.1 0 ⟨"C", some "foo", false, 0⟩).1 0 ⟨"C", 0⟩
        = none ∧
      hasW (emplaceSt (createW emptyWorld []).1.1 0 ⟨"C", some "foo", false, 0⟩).1 0 ⟨"C", 0⟩
        = false) := by
  constructor
  · intro w e c n he hn
    obtain ⟨hok, _, _, _, _, hget⟩ := emplace_ok w e c he
    have hkey : typeKey c = n := by simp [typeKey, hn]
    refine ⟨hok, ?_⟩
    intro cid
    have h := hget n e
    rw [hkey] at h
    simp at h
    constructor
    · simp [hasW, h]
    · simpa [getW] using h
  · decide

/-! ## Destroy lemmas -/

theorem destroyTables_lookup (tables : List (String × Table)) (e : Int) (k : String) :
    lookupA (destroyTables tables e).1 k =
      (lookupA tables k).map (fun tbl => eraseA tbl e) := by
  induction tables with
  | nil => simp [destroyTables, lookupA]
  | cons p rest ih =>
    obtain ⟨k0, tbl⟩ := p
    by_cases h : k0 = k
    · simp [destroyTables, lookupA, h]
    · simp [destroyTables, lookupA, h, ih]

theorem mem_destroyLog (tables : List (String × Table)) (e : Int) (p : String × Component)
    (hp : p ∈ (destroyTables tables e).2) : p.1 ∈ tables.map Prod.fst := by
  induction tables with
  | nil => simp [destroyTables] at hp
  | cons q rest ih =>
    obtain ⟨k0, tbl⟩ := q
    simp only [destroyTables] at hp
    rcases List.mem_append.mp hp with h1 | h1
    · cases hl : lookupA tbl e with
      | none => rw [hl] at h1; simp at h1
      | some c =>
        rw [hl] at h1
        by_cases hf : c.hasFree
        · simp [hf] at h1
          simp [h1]
        · simp [hf] at h1
    · have := ih h1
      simp [this]

theorem destroy_log_filter (tables : List (String × Table)) (e : Int)
    (hnd : (tables.map Prod.fst).Nodup) (t : String) :
    (destroyTables tables e).2.filter (fun p => decide (p.1 = t)) =
      (match lookupA tables t with
       | some tbl =>
         (match lookupA tbl e with
          | some c => if c.hasFree then [(t, c)] else []
          | none => [])
       | none => []) := by
  induction tables with
  | nil => simp [destroyTables, lookupA]
  | cons q rest ih =>
    obtain ⟨k0, tbl⟩ := q
    simp only [List.map_cons] at hnd
    obtain ⟨hk0, hnd'⟩ := List.nodup_cons.mp hnd
    simp only [destroyTables]
    rw [List.filter_append]
    by_cases h : k0 = t
    · subst h
      have hrest : (destroyTables rest e).2.filter (fun p => decide (p.1 = k0)) = [] := by
        rw [List.filter_eq_nil_iff]
        intro p hp
        have hmem := mem_destroyLog rest e p hp
        simp only [decide_eq_true_eq]
        intro hpk
        exact hk0 (hpk ▸ hmem)
      rw [hrest]
      cases hl : lookupA tbl e with
      | none => simp [hl, lookupA]
      | some c =>
        by_cases hf : c.hasFree
        · simp [hl, hf, lookupA]
        · simp [hl, hf, lookupA]
    · have hhead : (match lookupA tbl e with
          | some c => if c.hasFree then [(k0, c)] else []
          | none => ([] : List (String × Component))).filter
            (fun p : String × Component => decide (p.1 = t)) = [] := by
        cases hl : lookupA tbl e with
        | none => simp
        | some c =>
          by_cases hf : c.hasFree
          · simp [hf, h]
          · simp [hf]
      rw [hhead]
      simp only [List.nil_append]
      rw [ih hnd']
      simp [lookupA, h]

/-- C6: `destroy` on a live entity removes it from the live set, detaches
every component type from it, and invokes the release hook of exactly the
still-attached components carrying one, once each (the invocation log has
exactly one entry per such type, and none for any other type). -/
theorem destroy_frees_once_and_detaches (w : World) (e : Int)
    (hnd : (w.components.map Prod.fst).Nodup) (he : e ∈ w.entities) :
    existsW (destroyW w e).1 e = false ∧
    (∀ ct : Ctor, hasW (destroyW w e).1 e ct = false) ∧
    ∀ t : String, (destroyW w e).2.filter (fun p => decide (p.1 = t)) =
      (match getComp w t e with
       | some c => if c.hasFree then [(t, c)] else []
       | none => []) := by
  refine ⟨?_, ?_, ?_⟩
  · simp [destroyW, existsW, List.mem_filter]
  · intro ct
    simp only [destroyW, hasW, getComp]
    rw [destroyTables_lookup]
    cases hl : lookupA w.components ct.name with
    | none => simp [hl]
    | some tbl => simp [hl, lookupA_eraseA_self]
  · intro t
    have h := destroy_log_filter w.components e hnd t
    simp only [destroyW]
    rw [h]
    cases hl : lookupA w.components t with
    | none => simp [getComp, hl]
    | some tbl => simp [getComp, hl]

theorem destroy_frees_once_and_detaches_witness :
    ((((createW (createW emptyWorld
        [⟨"F", none, true, 0⟩, ⟨"A", none, false, 1⟩]).1.1
        [⟨"B", none, true, 2⟩]).1.1).components.map Prod.fst).Nodup ∧
      (0 : Int) ∈ ((createW (createW emptyWorld
        [⟨"F", none, true, 0⟩, ⟨"A", none, false, 1⟩]).1.1
        [⟨"B", none, true, 2⟩]).1.1).entities) ∧
    (existsW (destroyW ((createW (createW emptyWorld
        [⟨"F", none, true, 0⟩, ⟨"A", none, false, 1⟩]).1.1
        [⟨"B", none, true, 2⟩]).1.1) 0).1 0 = false ∧
      (∀ ct : Ctor, hasW (destroyW ((createW (createW emptyWorld
        [⟨"F", none, true, 0⟩, ⟨"A", none, false, 1⟩]).1.1
        [⟨"B", none, true, 2⟩]).1.1) 0).1 0 ct = false) ∧
      ∀ t : String, (destroyW ((createW (createW emptyWorld
        [⟨"F", none, true, 0⟩, ⟨"A", none, false, 1⟩]).1.1
        [⟨"B", none, true, 2⟩]).1.1) 0).2.filter (fun p => decide (p.1 = t)) =
        (match getComp ((createW (createW emptyWorld
          [⟨"F", none, true, 0⟩, ⟨"A", none, false, 1⟩]).1.1
          [⟨"B", none, true, 2⟩]).1.1) t 0 with
         | some c => if c.hasFree then [(t, c)] else []
         | none => [])) :=
  ⟨⟨by decide, by decide⟩,
    destroy_frees_once_and_detaches _ 0 (by decide) (by decide)⟩

/-! ## View cache lemmas -/

theorem view_hit (w : World) (ts : List Ctor) (v : ViewT)
    (h : lookupA w.views (viewKey ts) = some v) : viewW w ts = (w, v) := by
  simp only [viewW, h]

theorem view_lookup_after (w : World) (ts : List Ctor) :
    lookupA (viewW w ts).1.views (viewKey ts) = some (viewW w ts).2 := by
  unfold viewW
  cases hl : lookupA w.views (viewKey ts) with
  | some v => simp [hl]
  | none => simp [hl, lookupA_setA_self]

/-- C9: the View cache key is the bare concatenation of the requested
constructors' names, so a second `view` call whose tuple concatenates to the
same key (the same tuple, or a colliding distinct tuple) returns exactly the
cached View object of the first call, leaving the world unchanged. -/
theorem view_cache_key_collision (w : World) (ts1 ts2 : List Ctor)
    (hkey : viewKey ts1 = viewKey ts2) :
    viewW (viewW w ts1).1 ts2 = ((viewW w ts1).1, (viewW w ts1).2) := by
  apply view_hit
  rw [← hkey]
  exact view_lookup_after w ts1

theorem view_cache_key_collision_witness :
    viewKey [(⟨"A", 1⟩ : Ctor), ⟨"BC", 2⟩] = viewKey [(⟨"AB", 3⟩ : Ctor), ⟨"C", 4⟩] ∧
    viewW (viewW emptyWorld [(⟨"A", 1⟩ : Ctor), ⟨"BC", 2⟩]).1 [(⟨"AB", 3⟩ : Ctor), ⟨"C", 4⟩]
      = ((viewW emptyWorld [(⟨"A", 1⟩ : Ctor), ⟨"BC", 2⟩]).1,
         (viewW emptyWorld [(⟨"A", 1⟩ : Ctor), ⟨"BC", 2⟩]).2) ∧
    (viewW emptyWorld [(⟨"A", 1⟩ : Ctor), ⟨"BC", 2⟩]).2.types = ["A", "BC"] ∧
    ["A", "BC"] ≠ ["AB", "C"] :=
  ⟨by decide,
    view_cache_key_collision emptyWorld [⟨"A", 1⟩, ⟨"BC", 2⟩] [⟨"AB", 3⟩, ⟨"C", 4⟩] (by decide),
    by decide, by decide⟩

/-! ## View execution lemmas -/

theorem ensure_lookup_some (ts : List Ctor) (cs : List (String × Table)) (n : String)
    (tbl : Table) (h : lookupA cs n = some tbl) :
    lookupA (ensureTables cs ts) n = some tbl := by
  induction ts generalizing cs with
  | nil => simpa [ensureTables] using h
  | cons t rest ih =>
    cases hl : lookupA cs t.name with
    | none =>
      simp only [ensureTables, hl]
      apply ih
      have hne : n ≠ t.name := by
        intro hh
        rw [hh, hl] at h
        cases h
      rw [lookupA_setA_ne _ _ _ _ hne]
      exact h
    | some _ =>
      simp only [ensureTables, hl]
      exact ih cs h

theorem ensure_isSome_of_mem (ts : List Ctor) (cs : List (String × Table)) (t : Ctor)
    (ht : t ∈ ts) : (lookupA (ensureTables cs ts) t.name).isSome := by
  induction ts generalizing cs with
  | nil => cases ht
  | cons u rest ih =>
    rcases List.mem_cons.mp ht with h | h
    · subst h
      cases hl : lookupA cs t.name with
      | none =>
        simp only [ensureTables, hl]
        have h2 := ensure_lookup_some rest (setA cs t.name []) t.name []
          (lookupA_setA_self _ _ _)
        simp [h2]
      | some tbl =>
        simp only [ensureTables, hl]
        have h2 := ensure_lookup_some rest cs t.name tbl hl
        simp [h2]
    · cases hl : lookupA cs u.name with
      | none =>
        simp only [ensureTables, hl]
        exact ih _ h
      | some _ =>
        simp only [ensureTables, hl]
        exact ih cs h

theorem ensure_lookup_none_cases (ts : List Ctor) (cs : List (String × Table)) (n : String)
    (h : lookupA cs n = none) :
    lookupA (ensureTables cs ts) n = none ∨ lookupA (ensureTables cs ts) n = some [] := by
  induction ts generalizing cs with
  | nil => left; simpa [ensureTables] using h
  | cons u rest ih =>
    cases hl : lookupA cs u.name with
    | none =>
      simp only [ensureTables, hl]
      by_cases hn : n = u.name
      · subst hn
        right
        exact ensure_lookup_some rest _ u.name [] (lookupA_setA_self _ _ _)
      · apply ih
        rw [lookupA_setA_ne _ _ _ _ hn]
        exact h
    | some _ =>
      simp only [ensureTables, hl]
      exact ih cs h

theorem lookupA_ensure_entry (ts : List Ctor) (cs : List (String × Table)) (n : String)
    (e : Int) :
    (match lookupA (ensureTables cs ts) n with
     | none => none
     | some tbl => lookupA tbl e) =
    (match lookupA cs n with
     | none => (none : Option Component)
     | some tbl => lookupA tbl e) := by
  cases h : lookupA cs n with
  | some tbl => rw [ensure_lookup_some ts cs n tbl h]
  | none =>
    rcases ensure_lookup_none_cases ts cs n h with h2 | h2
    · rw [h2]
    · rw [h2]
      simp [lookupA]

theorem viewStep_ok (w : World) (names : List String) (e : Int)
    (htab : ∀ n ∈ names, (lookupA w.components n).isSome) :
    viewStep w names e = Except.ok (collectComps w names e) := by
  induction names with
  | nil => rfl
  | cons n rest ih =>
    obtain ⟨tbl, hl⟩ := Option.isSome_iff_exists.mp (htab n (List.mem_cons_self n rest))
    have hrest : ∀ m ∈ rest, (lookupA w.components m).isSome :=
      fun m hm => htab m (List.mem_cons_of_mem _ hm)
    simp only [viewStep, collectComps, getComp, hl]
    cases hle : lookupA tbl e with
    | none => rfl
    | some c =>
      rw [ih hrest]
      cases hcc : collectComps w rest e <;> rfl

theorem runEachGo_ok (w : World) (names : List String) (cb : Int → List Component → Bool)
    (es : List Int) (htab : ∀ n ∈ names, (lookupA w.components n).isSome) :
    ∃ tr, runEachGo w names cb es = Except.ok tr := by
  induction es with
  | nil => exact ⟨[], rfl⟩
  | cons e rest ih =>
    obtain ⟨tr, htr⟩ := ih
    cases hc : collectComps w names e with
    | none =>
      refine ⟨tr, ?_⟩
      simp only [runEachGo, viewStep_ok w names e htab, hc]
      exact htr
    | some cs =>
      by_cases hcb : cb e cs
      · refine ⟨(e, cs) :: tr, ?_⟩
        simp only [runEachGo, viewStep_ok w names e htab, hc, if_pos hcb, htr]
      · refine ⟨[(e, cs)], ?_⟩
        simp only [runEachGo, viewStep_ok w names e htab, hc, if_neg hcb]

theorem viewStep_skip_empty (w : World) (names : List String) (e : Int) (t : String)
    (ht : t ∈ names) (hempty : lookupA w.components t = some [])
    (htab : ∀ n ∈ names, (lookupA w.components n).isSome) :
    viewStep w names e = Except.ok none := by
  induction names with
  | nil => cases ht
  | cons n rest ih =>
    obtain ⟨tbl, hl⟩ := Option.isSome_iff_exists.mp (htab n (List.mem_cons_self n rest))
    simp only [viewStep, hl]
    cases hle : lookupA tbl e with
    | none => rfl
    | some c =>
      rcases List.mem_cons.mp ht with hh | hh
      · subst hh
        rw [hempty] at hl
        cases hl
        cases hle
      · rw [ih hh (fun m hm => htab m (List.mem_cons_of_mem _ hm))]

theorem runEachGo_empty (w : World) (names : List String)
    (cb : Int → List Component → Bool) (es : List Int) (t : String)
    (ht : t ∈ names) (hempty : lookupA w.components t = some [])
    (htab : ∀ n ∈ names, (lookupA w.components n).isSome) :
    runEachGo w names cb es = Except.ok [] := by
  induction es with
  | nil => rfl
  | cons e rest ih =>
    simp only [runEachGo, viewStep_skip_empty w names e t ht hempty htab]
    exact ih

theorem runEachGo_trace (w : World) (names : List String)
    (cb : Int → List Component → Bool) (es : List Int)
    (htab : ∀ n ∈ names, (lookupA w.components n).isSome)
    (hcb : ∀ e cs, cb e cs = true) :
    runEachGo w names cb es = Except.ok (es.filterMap (fun e =>
      (collectComps w names e).map (fun cs => (e, cs)))) := by
  induction es with
  | nil => rfl
  | cons e rest ih =>
    simp only [runEachGo, viewStep_ok w names e htab]
    cases hc : collectComps w names e with
    | none => simp [List.filterMap_cons, hc, ih]
    | some cs => simp [List.filterMap_cons, hc, hcb e cs, ih]

theorem map_fst_filterMap (es : List Int) (h : Int → Option (List Component)) :
    (es.filterMap (fun e => (h e).map (fun cs => (e, cs)))).map Prod.fst =
      es.filter (fun e => (h e).isSome) := by
  induction es with
  | nil => rfl
  | cons e rest ih =>
    cases hc : h e with
    | none => simp [List.filterMap_cons, hc, List.filter_cons, ih]
    | some cs => simp [List.filterMap_cons, hc, List.filter_cons, ih]

theorem count_filter_nodup (es : List Int) (p : Int → Bool) (hnd : es.Nodup) (e : Int) :
    (es.filter p).count e = if e ∈ es ∧ p e = true then 1 else 0 := by
  induction es with
  | nil => simp
  | cons a rest ih =>
    obtain ⟨ha, hnd2⟩ := List.nodup_cons.mp hnd
    have hz : e ∉ rest → (rest.filter p).count e = 0 := fun hmem =>
      List.count_eq_zero.mpr (fun hmf => hmem (List.mem_of_mem_filter hmf))
    by_cases hae : a = e
    · subst hae
      have h0 : (rest.filter p).count a = 0 := hz ha
      by_cases hp : p a
      · simp [List.filter_cons, hp, List.count_cons, h0, ih hnd2]
      · simp [List.filter_cons, hp, h0, ih hnd2, ha]
    · have hne : e ≠ a := fun hh => hae hh.symm
      by_cases hp : p a <;>
        simp [List.filter_cons, hp, List.count_cons, hae, hne, ih hnd2]

theorem getComp_ensure (w : World) (ts : List Ctor) (n : String) (e : Int) :
    getComp (viewMissWorld w ts) n e = getComp w n e := by
  simp only [getComp, viewMissWorld]
  exact lookupA_ensure_entry ts w.components n e

/-- The two-type iteration over an entity list whose tables exist: the trace
is exactly one invocation per listed entity holding both components, in list
order, carrying the two components. -/
theorem each_pair_spec (wq : World) (A B : Ctor) (cb : Int → List Component → Bool)
    (es : List Int) (hnd : es.Nodup)
    (htab : ∀ n ∈ [A.name, B.name], (lookupA wq.components n).isSome)
    (hcb : ∀ e cs, cb e cs = true) :
    ∃ tr, runEachGo wq [A.name, B.name] cb es = Except.ok tr ∧
      tr.map Prod.fst = es.filter (fun e => hasW wq e A && hasW wq e B) ∧
      (∀ e cs, (e, cs) ∈ tr → ∃ ca cb2, getW wq e A = some ca ∧ getW wq e B = some cb2 ∧
        cs = [ca, cb2]) ∧
      ∀ e : Int, (tr.map Prod.fst).count e =
        if e ∈ es ∧ hasW wq e A = true ∧ hasW wq e B = true then 1 else 0 := by
  have hcol : ∀ e, (collectComps wq [A.name, B.name] e).isSome
      = (hasW wq e A && hasW wq e B) := by
    intro e
    simp only [collectComps, hasW, getW]
    cases getComp wq A.name e <;> cases getComp wq B.name e <;> simp
  have hcolf : (fun e => (collectComps wq [A.name, B.name] e).isSome)
      = (fun e => hasW wq e A && hasW wq e B) := funext hcol
  refine ⟨_, runEachGo_trace wq _ cb es htab hcb, ?_, ?_, ?_⟩
  · rw [map_fst_filterMap, hcolf]
  · intro e cs hmem
    obtain ⟨a, ha, hfa⟩ := List.mem_filterMap.mp hmem
    obtain ⟨cs2, hcs2, heq⟩ := Option.map_eq_some'.mp hfa
    injection heq with heq1 heq2
    subst heq1
    subst heq2
    simp only [collectComps] at hcs2
    cases hA : getComp wq A.name a with
    | none => simp [hA] at hcs2
    | some ca =>
      cases hB : getComp wq B.name a with
      | none => simp [hA, hB] at hcs2
      | some cb2 =>
        simp [hA, hB] at hcs2
        exact ⟨ca, cb2, hA, hB, hcs2.symm⟩
  · intro e
    rw [map_fst_filterMap, hcolf, count_filter_nodup es _ hnd e]
    simp only [Bool.and_eq_true]

/-- C3: over a fresh query, `view(A, B).each(cb)` (for a callback that never
stops) succeeds with a trace that invokes the callback exactly once per live
entity holding both an A and a B component, never for any other entity, in
the live set's enumeration order, passing the entity with its A and B
components. -/
theorem view_each_visits_matching (w : World) (A B : Ctor)
    (cb : Int → List Component → Bool) (hnd : w.entities.Nodup)
    (hfresh : lookupA w.views (viewKey [A, B]) = none)
    (hcb : ∀ e cs, cb e cs = true) :
    ∃ tr, eachW (viewW w [A, B]).1 (viewW w [A, B]).2 cb = Except.ok tr ∧
      tr.map Prod.fst = w.entities.filter (fun e => hasW w e A && hasW w e B) ∧
      (∀ e cs, (e, cs) ∈ tr → ∃ ca cb2, getW w e A = some ca ∧ getW w e B = some cb2 ∧
        cs = [ca, cb2]) ∧
      ∀ e : Int, (tr.map Prod.fst).count e =
        if e ∈ w.entities ∧ hasW w e A = true ∧ hasW w e B = true then 1 else 0 := by
  have hv : viewW w [A, B] =
      (viewMissWorld w [A, B], (⟨[A.name, B.name], w.viewCounter⟩ : ViewT)) := by
    simp [viewW, viewMissWorld, hfresh]
  have hgc : ∀ n e, getComp (viewMissWorld w [A, B]) n e = getComp w n e :=
    fun n e => getComp_ensure w [A, B] n e
  have hhas : ∀ (ct : Ctor) e, hasW (viewMissWorld w [A, B]) e ct = hasW w e ct := by
    intro ct e
    simp only [hasW, hgc]
  have hget : ∀ (ct : Ctor) e, getW (viewMissWorld w [A, B]) e ct = getW w e ct := by
    intro ct e
    simp only [getW, hgc]
  have htab : ∀ n ∈ [A.name, B.name],
      (lookupA (viewMissWorld w [A, B]).components n).isSome := by
    intro n hn
    rcases List.mem_cons.mp hn with h | h
    · subst h
      exact ensure_isSome_of_mem [A, B] w.components A (by simp)
    · rcases List.mem_cons.mp h with h2 | h2
      · subst h2
        exact ensure_isSome_of_mem [A, B] w.components B (by simp)
      · cases h2
  have hent : (viewMissWorld w [A, B]).entities = w.entities := rfl
  obtain ⟨tr, h1, h2, h3, h4⟩ :=
    each_pair_spec (viewMissWorld w [A, B]) A B cb w.entities hnd htab hcb
  rw [hv]
  refine ⟨tr, ?_, ?_, ?_, ?_⟩
  · simpa [eachW, hent] using h1
  · rw [h2]
    congr 1
    funext e
    rw [hhas, hhas]
  · intro e cs hm
    obtain ⟨ca, cb2, hA, hB, hcs⟩ := h3 e cs hm
    rw [hget] at hA
    rw [hget] at hB
    exact ⟨ca, cb2, hA, hB, hcs⟩
  · intro e
    rw [h4 e]
    simp only [hhas]

/-- C7: a fresh `view` call over any tuple of constructors, including types
never stored, registers an empty table for each missing type so that `each`
never fails, and when some requested type has never been stored the iteration
yields zero matches. -/
theorem view_unknown_type_safe (w : World) (ts : List Ctor)
    (cb : Int → List Component → Bool)
    (hfresh : lookupA w.views (viewKey ts) = none) :
    (∃ tr, eachW (viewW w ts).1 (viewW w ts).2 cb = Except.ok tr) ∧
    ((∃ t, t ∈ ts ∧ lookupA w.components t.name = none) →
      eachW (viewW w ts).1 (viewW w ts).2 cb = Except.ok []) := by
  have hv : viewW w ts =
      (viewMissWorld w ts, (⟨ts.map (fun t => t.name), w.viewCounter⟩ : ViewT)) := by
    simp [viewW, viewMissWorld, hfresh]
  rw [hv]
  simp only [eachW]
  have htab : ∀ n ∈ ts.map (fun t => t.name),
      (lookupA (viewMissWorld w ts).components n).isSome := by
    intro n hn
    obtain ⟨t, ht, rfl⟩ := List.mem_map.mp hn
    exact ensure_isSome_of_mem ts w.components t ht
  constructor
  · exact runEachGo_ok _ _ cb _ htab
  · rintro ⟨t, ht, hnone⟩
    have hempty : lookupA (viewMissWorld w ts).components t.name = some [] := by
      rcases ensure_lookup_none_cases ts w.components t.name hnone with h2 | h2
      · have h3 := ensure_isSome_of_mem ts w.components t ht
        rw [show lookupA (ensureTables w.components ts) t.name =
            lookupA (viewMissWorld w ts).components t.name from rfl] at h3
        rw [show lookupA (ensureTables w.components ts) t.name =
            lookupA (viewMissWorld w ts).components t.name from rfl] at h2
        rw [h2] at h3
        simp at h3
      · exact h2
    exact runEachGo_empty _ _ cb _ t.name (List.mem_map_of_mem _ ht) hempty htab

theorem view_each_visits_matching_witness :
    (fizzBuzzWorld.entities.Nodup ∧
      lookupA fizzBuzzWorld.views (viewKey [fizzCtor, buzzCtor]) = none) ∧
    ∃ tr, eachW (viewW fizzBuzzWorld [fizzCtor, buzzCtor]).1
        (viewW fizzBuzzWorld [fizzCtor, buzzCtor]).2 (fun _ _ => true) = Except.ok tr ∧
      tr.map Prod.fst = [0, 15] := by
  obtain ⟨tr, h1, h2, h3, h4⟩ := view_each_visits_matching fizzBuzzWorld fizzCtor buzzCtor
    (fun _ _ => true) (by decide) (by decide) (fun _ _ => rfl)
  refine ⟨⟨by decide, by decide⟩, tr, h1, ?_⟩
  rw [h2]
  decide

theorem view_unknown_type_safe_witness :
    lookupA ((createW emptyWorld []).1.1).views (viewKey [(⟨"Nope", 0⟩ : Ctor)]) = none ∧
    eachW (viewW (createW emptyWorld []).1.1 [(⟨"Nope", 0⟩ : Ctor)]).1
      (viewW (createW emptyWorld []).1.1 [(⟨"Nope", 0⟩ : Ctor)]).2 (fun _ _ => true)
      = Except.ok [] := by
  have h := view_unknown_type_safe (createW emptyWorld []).1.1 [⟨"Nope", 0⟩]
    (fun _ _ => true) (by decide)
  exact ⟨by decide, h.2 ⟨⟨"Nope", 0⟩, by decide, by decide⟩⟩

/-! ## Tag lemmas -/

theorem lookupA_mem {α β : Type} [DecidableEq α] (l : List (α × β)) (k : α) (v : β)
    (h : lookupA l k = some v) : (k, v) ∈ l := by
  induction l with
  | nil => cases h
  | cons p rest ih =>
    obtain ⟨k0, v0⟩ := p
    by_cases h0 : k0 = k
    · subst h0
      simp only [lookupA, if_pos rfl] at h
      injection h with h
      subst h
      exact List.mem_cons_self _ _
    · simp only [lookupA, if_neg h0] at h
      exact List.mem_cons_of_mem _ (ih h)

theorem string_append_cancel (p a b : String) (h : p ++ a = p ++ b) : a = b := by
  have hd : p.data ++ a.data = p.data ++ b.data := by
    have h2 := congrArg String.data h
    simpa [String.data_append] using h2
  have h3 : a.data = b.data := List.append_cancel_left hd
  cases a
  cases b
  simp only at h3
  rw [h3]

theorem tagFor_cache_mono (st : TagState) (m : TagName) (s : String) (t : Ctor)
    (h : lookupA st.cache s = some t) : lookupA (tagFor st m).1.cache s = some t := by
  unfold tagFor
  cases hl : lookupA st.cache (tagToString m) with
  | some u =>
    simp only [hl]
    exact h
  | none =>
    simp only [hl]
    have hne : s ≠ tagToString m := by
      intro hh
      rw [hh, hl] at h
      cases h
    rw [lookupA_setA_ne _ _ _ _ hne]
    exact h

theorem tagFor_lookup_self (st : TagState) (m : TagName) :
    lookupA (tagFor st m).1.cache (tagToString m) = some (tagFor st m).2 := by
  unfold tagFor
  cases hl : lookupA st.cache (tagToString m) with
  | some u => simp only [hl]
  | none =>
    simp only [hl]
    exact lookupA_setA_self _ _ _

theorem tagFor_of_cached (st : TagState) (m : TagName) (t : Ctor)
    (h : lookupA st.cache (tagToString m) = some t) : tagFor st m = (st, t) := by
  unfold tagFor
  simp only [h]

theorem tagFor_name (st : TagState) (m : TagName)
    (hWF : ∀ p ∈ st.cache, (p : String × Ctor).2.name = "T$" ++ p.1) :
    (tagFor st m).2.name = "T$" ++ tagToString m := by
  unfold tagFor
  cases hl : lookupA st.cache (tagToString m) with
  | some u =>
    simp only [hl]
    exact hWF _ (lookupA_mem _ _ _ hl)
  | none => simp [hl]

theorem tagFor_WF (st : TagState) (m : TagName)
    (hWF : ∀ p ∈ st.cache, (p : String × Ctor).2.name = "T$" ++ p.1) :
    ∀ p ∈ (tagFor st m).1.cache, (p : String × Ctor).2.name = "T$" ++ p.1 := by
  unfold tagFor
  cases hl : lookupA st.cache (tagToString m) with
  | some u =>
    simp only [hl]
    exact hWF
  | none =>
    simp only [hl]
    intro p hp
    rcases mem_setA _ _ _ p hp with h | h
    · exact hWF p h
    · subst h
      rfl

theorem tagRun_length (names : List TagName) (st : TagState) :
    ((tagRun st names).2).length = names.length := by
  induction names generalizing st with
  | nil => rfl
  | cons m rest ih =>
    simp only [tagRun, List.length_cons]
    rw [ih]

theorem tagRun_name_spec (names : List TagName) (st : TagState)
    (hWF : ∀ p ∈ st.cache, (p : String × Ctor).2.name = "T$" ++ p.1) :
    ∀ (k : Nat) (a : TagName) (t : Ctor), names[k]? = some a →
      (tagRun st names).2[k]? = some t → t.name = "T$" ++ tagToString a := by
  induction names generalizing st with
  | nil =>
    intro k a t ha
    simp at ha
  | cons m rest ih =>
    intro k a t ha ht
    cases k with
    | zero =>
      simp only [List.getElem?_cons_zero] at ha
      injection ha with ha
      subst ha
      simp only [tagRun, List.getElem?_cons_zero] at ht
      injection ht with ht
      subst ht
      exact tagFor_name st m hWF
    | succ k0 =>
      simp only [List.getElem?_cons_succ] at ha
      simp only [tagRun, List.getElem?_cons_succ] at ht
      exact ih (tagFor st m).1 (tagFor_WF st m hWF) k0 a t ha ht

theorem tagRun_cached_out (names : List TagName) (st : TagState) (s : String) (t : Ctor)
    (h : lookupA st.cache s = some t) :
    ∀ (k : Nat) (a : TagName), names[k]? = some a → tagToString a = s →
      (tagRun st names).2[k]? = some t := by
  induction names generalizing st with
  | nil =>
    intro k a ha
    simp at ha
  | cons m rest ih =>
    intro k a ha hs
    cases k with
    | zero =>
      simp only [List.getElem?_cons_zero] at ha
      injection ha with ha
      subst ha
      have hc := tagFor_of_cached st m t (by rw [hs]; exact h)
      simp only [tagRun, hc, List.getElem?_cons_zero]
    | succ k0 =>
      simp only [List.getElem?_cons_succ] at ha
      simp only [tagRun, List.getElem?_cons_succ]
      exact ih (tagFor st m).1 (tagFor_cache_mono st m s t h) k0 a ha hs

theorem tagRun_same (names : List TagName) (st : TagState) :
    ∀ (i j : Nat) (a b : TagName), names[i]? = some a → names[j]? = some b →
      tagToString a = tagToString b →
      (tagRun st names).2[i]? = (tagRun st names).2[j]? := by
  induction names generalizing st with
  | nil =>
    intro i j a b ha
    simp at ha
  | cons m rest ih =>
    intro i j a b ha hb hs
    cases i with
    | zero =>
      simp only [List.getElem?_cons_zero] at ha
      injection ha with ha
      subst ha
      cases j with
      | zero => rfl
      | succ j0 =>
        simp only [List.getElem?_cons_succ] at hb
        have hout := tagRun_cached_out rest (tagFor st m).1 (tagToString m)
          (tagFor st m).2 (tagFor_lookup_self st m) j0 b hb hs.symm
        simp only [tagRun, List.getElem?_cons_zero, List.getElem?_cons_succ]
        rw [hout]
    | succ i0 =>
      simp only [List.getElem?_cons_succ] at ha
      cases j with
      | zero =>
        simp only [List.getElem?_cons_zero] at hb
        injection hb with hb
        subst hb
        have hout := tagRun_cached_out rest (tagFor st m).1 (tagToString m)
          (tagFor st m).2 (tagFor_lookup_self st m) i0 a ha hs
        simp only [tagRun, List.getElem?_cons_zero, List.getElem?_cons_succ]
        rw [hout]
      | succ j0 =>
        simp only [List.getElem?_cons_succ] at ha hb
        simp only [tagRun, List.getElem?_cons_succ]
        exact ih (tagFor st m).1 i0 j0 a b ha hb hs

/-- C8: over any sequence of Tag.for requests from a fresh cache, two requests
receive the identical class exactly when their names convert to the same
string: repeated equal names always yield the same memoized class, and names
with different string conversions never collide. -/
theorem tag_for_identity (names : List TagName) (i j : Nat) (a b : TagName)
    (ha : names[i]? = some a) (hb : names[j]? = some b) :
    ((tagRun initTagState names).2[i]? = (tagRun initTagState names).2[j]?) ↔
      tagToString a = tagToString b := by
  have hWF : ∀ p ∈ initTagState.cache, (p : String × Ctor).2.name = "T$" ++ p.1 := by
    intro p hp
    simp [initTagState] at hp
  constructor
  · intro h
    have hi : i < names.length := by
      by_contra hge
      push_neg at hge
      rw [List.getElem?_eq_none hge] at ha
      cases ha
    have hj : j < names.length := by
      by_contra hge
      push_neg at hge
      rw [List.getElem?_eq_none hge] at hb
      cases hb
    have hi2 : i < ((tagRun initTagState names).2).length := by
      rw [tagRun_length]
      exact hi
    have hj2 : j < ((tagRun initTagState names).2).length := by
      rw [tagRun_length]
      exact hj
    have hti := List.getElem?_eq_getElem hi2
    have htj := List.getElem?_eq_getElem hj2
    have hna := tagRun_name_spec names initTagState hWF i a _ ha hti
    have hnb := tagRun_name_spec names initTagState hWF j b _ hb htj
    rw [hti, htj] at h
    injection h with h
    rw [h] at hna
    exact string_append_cancel "T$" _ _ (hna.symm.trans hnb)
  · intro h
    exact tagRun_same names initTagState i j a b ha hb h

theorem tag_for_identity_witness :
    (([TagName.str "Enemy", TagName.num 5, TagName.str "Enemy",
        TagName.str "5"].get? 0 = some (TagName.str "Enemy")) ∧
      ([TagName.str "Enemy", TagName.num 5, TagName.str "Enemy",
        TagName.str "5"].get? 2 = some (TagName.str "Enemy"))) ∧
    (((tagRun initTagState [TagName.str "Enemy", TagName.num 5, TagName.str "Enemy",
        TagName.str "5"]).2[0]? = (tagRun initTagState [TagName.str "Enemy",
        TagName.num 5, TagName.str "Enemy", TagName.str "5"]).2[2]?) ↔
      tagToString (TagName.str "Enemy") = tagToString (TagName.str "Enemy")) ∧
    (((tagRun initTagState [TagName.str "Enemy", TagName.num 5, TagName.str "Enemy",
        TagName.str "5"]).2[1]? = (tagRun initTagState [TagName.str "Enemy",
        TagName.num 5, TagName.str "Enemy", TagName.str "5"]).2[3]?) ↔
      tagToString (TagName.num 5) = tagToString (TagName.str "5")) :=
  ⟨⟨rfl, rfl⟩,
    tag_for_identity [TagName.str "Enemy", TagName.num 5, TagName.str "Enemy",
      TagName.str "5"] 0 2 (TagName.str "Enemy") (TagName.str "Enemy") rfl rfl,
    tag_for_identity [TagName.str "Enemy", TagName.num 5, TagName.str "Enemy",
      TagName.str "5"] 1 3 (TagName.num 5) (TagName.str "5") rfl rfl⟩

end UECS
